import Mathlib

/-!
Verification of the DCA investment-tracker core (src/app.py) against its
natural-language specification.  The embedding covers:

* the period resampler (`load_data`, `data.resample('MS').first()`),
* the single-asset DCA simulator (`calculate_portfolio`),
* the multi-asset aggregator (`combined_df` construction and `ffill`),
* the metrics summarizer (`return_pct`),
* the caller-side ticker deduplication (`unique_tickers`).

Prices are modelled as rationals; a missing price (NaN) is `none`.
-/

set_option autoImplicit false

namespace InvTracker

/-- A calendar date: an absolute month index and a day of month. -/
structure Date where
  month : Nat
  day : Nat
deriving DecidableEq

/-- Strict chronological order on dates (lexicographic on month, then day). -/
def Date.before (a b : Date) : Prop :=
  a.month < b.month ∨ (a.month = b.month ∧ a.day < b.day)

instance (a b : Date) : Decidable (a.before b) := by
  unfold Date.before
  infer_instance

/-- One raw price observation of one instrument: timestamp and adjusted
close.  `none` models a missing (NaN) price in the downloaded table. -/
abbrev Obs := Date × Option ℚ

/-- The month of every observation, in index order. -/
def monthsOf (xs : List Obs) : List Nat :=
  xs.map (fun p => p.1.month)

/-- First month of the resampling span: the minimum month over the whole
index, computed as a fold with the first observation's month as seed. -/
def loMonth (m0 : Nat) (rest : List Obs) : Nat :=
  (monthsOf rest).foldl Nat.min m0

/-- Last month of the resampling span: the maximum month over the whole
index. -/
def hiMonth (m0 : Nat) (rest : List Obs) : Nat :=
  (monthsOf rest).foldl Nat.max m0

/-- `Resampler.first()` on one month bucket: the first non-missing price
among the observations of month `m`, in index order (pandas `first`
skips NaN). -/
def firstPriceInMonth (m : Nat) (xs : List Obs) : Option ℚ :=
  ((xs.filter (fun p => p.1.month == m)).filterMap Prod.snd).head?

/-- src/app.py line 170, one column of
`data.resample('MS').first()`: one row per calendar month from the first
to the last month of the index, labelled with the month start (day 1),
holding the first non-missing price of that month (or `none`). -/
def resampleMS : List Obs → List Obs
  | [] => []
  | x :: rest =>
    (List.range (hiMonth x.1.month rest + 1 - loMonth x.1.month rest)).map
      (fun i =>
        (⟨loMonth x.1.month rest + i, 1⟩,
         firstPriceInMonth (loMonth x.1.month rest + i) (x :: rest)))

/-- The loop state of `calculate_portfolio` after one iteration:
the date just consumed, `shares_owned`, `total_invested`, and the emitted
`current_value`. -/
structure SimStep where
  date : Date
  shares : ℚ
  invested : ℚ
  value : ℚ
deriving DecidableEq

/-- One emitted row of `calculate_portfolio`'s result frame:
(Date, Total Invested, Portfolio Value). -/
structure SimPoint where
  date : Date
  invested : ℚ
  value : ℚ
deriving DecidableEq

/-- `data[ticker].dropna()`: the observations whose price is present. -/
def dropna (xs : List Obs) : List (Date × ℚ) :=
  xs.filterMap (fun p => p.2.map (fun q => (p.1, q)))

/-- The loop of src/app.py lines 186-197: for each date/price pair buy
`monthly_inv / price` shares, add the contribution to `total_invested`,
and record the current value `shares_owned * price`. -/
def simSteps (c : ℚ) : ℚ → ℚ → List (Date × ℚ) → List SimStep
  | _, _, [] => []
  | sh, inv, (d, p) :: rest =>
    ⟨d, sh + c / p, inv + c, (sh + c / p) * p⟩ :: simSteps c (sh + c / p) (inv + c) rest

/-- src/app.py lines 173-203 (`calculate_portfolio`): drop missing
prices, then run the DCA loop from `shares_owned = 0`,
`total_invested = 0` and emit one row per remaining price. -/
def calculate_portfolio (xs : List Obs) (c : ℚ) : List SimPoint :=
  (simSteps c 0 0 (dropna xs)).map (fun s => ⟨s.date, s.invested, s.value⟩)

/-- One instrument's simulation result. -/
abbrev SimResult := List SimPoint

/-- The per-ticker results that survive the `if df.empty: continue`
check of the aggregation loop (src/app.py lines 218-230). -/
def nonEmptyResults (rs : List (String × SimResult)) : List (String × SimResult) :=
  rs.filter (fun r => !r.2.isEmpty)

/-- The index of `combined_df`: the index of the first ticker whose
result frame is non-empty (src/app.py line 227,
`combined_df = pd.DataFrame(index=df.index)`). -/
def axisOf (rs : List (String × SimResult)) : List Date :=
  match nonEmptyResults rs with
  | [] => []
  | r :: _ => r.2.map SimPoint.date

/-- The baseline `combined_df["Total Invested"]` column, taken from the
first non-empty ticker (src/app.py line 228). -/
def investedSeries (rs : List (String × SimResult)) : List ℚ :=
  match nonEmptyResults rs with
  | [] => []
  | r :: _ => r.2.map SimPoint.invested

/-- Assigning a per-ticker series into `combined_df` aligns it on the
existing index: at each axis date take the ticker's value there when it
has one, else a missing entry (src/app.py line 230). -/
def alignColumn (axis : List Date) (res : SimResult) : List (Option ℚ) :=
  axis.map (fun d => (res.find? (fun pt => decide (pt.date = d))).map SimPoint.value)

/-- The per-ticker value columns of `combined_df` before forward fill. -/
def combinedColumns (rs : List (String × SimResult)) : List (String × List (Option ℚ)) :=
  (nonEmptyResults rs).map (fun r => (r.1, alignColumn (axisOf rs) r.2))

/-- Forward fill with an explicit carry: a present entry replaces the
carry, a missing entry is replaced by the carry. -/
def ffillAux (carry : Option ℚ) : List (Option ℚ) → List (Option ℚ)
  | [] => []
  | none :: rest => carry :: ffillAux carry rest
  | some v :: rest => some v :: ffillAux (some v) rest

/-- src/app.py line 235, `combined_df.ffill()` on one column: gaps are
filled with the most recent earlier value; leading gaps stay missing. -/
def ffill (l : List (Option ℚ)) : List (Option ℚ) :=
  ffillAux none l

/-- The aggregated output: every kept ticker's value column, aligned to
the shared axis and forward-filled. -/
def aggregatedColumns (rs : List (String × SimResult)) : List (String × List (Option ℚ)) :=
  (combinedColumns rs).map (fun p => (p.1, ffill p.2))

/-- src/app.py line 256: `return_pct = ((final_value / final_invested) - 1) * 100`.
The code evaluates this expression unconditionally; a rational models the
IEEE value wherever the divisor is nonzero. -/
def return_pct (finalValue finalInvested : ℚ) : ℚ :=
  (finalValue / finalInvested - 1) * 100

/-- src/app.py lines 254-263: the metrics loop emits, for every valid
ticker, its name, final value, and the computed `return_pct`. -/
def summarize (finalInvested : ℚ) (finals : List (String × ℚ)) : List (String × ℚ × ℚ) :=
  finals.map (fun p => (p.1, p.2, return_pct p.2 finalInvested))

/-- src/app.py lines 121-128: the deduplication loop over
`selected_tickers.items()` with its `seen_symbols` set.  The accumulator
`seen` holds the symbols already kept. -/
def dedupeAux (seen : List String) : List (String × String) → List (String × String)
  | [] => []
  | p :: rest =>
    if p.2 ∈ seen then dedupeAux seen rest
    else p :: dedupeAux (p.2 :: seen) rest

/-- src/app.py line 122 (`unique_tickers`): deduplicate the
(display name, symbol) pairs by symbol, first occurrence wins. -/
def unique_tickers (l : List (String × String)) : List (String × String) :=
  dedupeAux [] l

/-- Modelled from the spec's words for the implicit claim: keep, for
every symbol, exactly the first entry carrying it and drop all later
entries with the same symbol. -/
def specKeepFirst : List (String × String) → List (String × String)
  | [] => []
  | p :: rest => p :: specKeepFirst (rest.filter (fun q => q.2 ≠ p.2))
termination_by l => l.length
decreasing_by
  simp only [List.length_cons]
  exact Nat.lt_succ_of_le (List.length_filter_le _ _)

/-- Modelled from the claim's words for C3: the number of strictly
positive prices in the input series. -/
def positivePriceCount (xs : List Obs) : Nat :=
  ((dropna xs).filter (fun q => decide (0 < q.2))).length

/-! ### Helper lemmas about the simulator loop -/

/-- Every loop iteration emits one row, carrying the consumed date. -/
theorem simSteps_map_date (c : ℚ) :
    ∀ (ps : List (Date × ℚ)) (sh inv : ℚ),
      (simSteps c sh inv ps).map SimStep.date = ps.map Prod.fst
  | [], _, _ => rfl
  | (d, p) :: rest, sh, inv => by
    simp [simSteps, simSteps_map_date c rest]

/-- The output rows of `calculate_portfolio` are the rows of the inner
loop, projected to (date, invested, value). -/
theorem calculate_portfolio_map_date (c : ℚ) (xs : List Obs) :
    (calculate_portfolio xs c).map SimPoint.date
      = (simSteps c 0 0 (dropna xs)).map SimStep.date := by
  unfold calculate_portfolio
  rw [List.map_map]
  rfl

theorem calculate_portfolio_map_invested (c : ℚ) (xs : List Obs) :
    (calculate_portfolio xs c).map SimPoint.invested
      = (simSteps c 0 0 (dropna xs)).map SimStep.invested := by
  unfold calculate_portfolio
  rw [List.map_map]
  rfl

/-- The `total_invested` entry of the last emitted row:
initial amount plus one contribution per consumed price. -/
theorem simSteps_invested_getLast (c : ℚ) :
    ∀ (ps : List (Date × ℚ)), ps ≠ [] → ∀ (sh inv : ℚ),
      ((simSteps c sh inv ps).map SimStep.invested).getLast?
        = some (inv + c * (ps.length : ℚ))
  | [], h => absurd rfl h
  | [(d, p)], _ => by
    intro sh inv
    simp [simSteps]
  | (d, p) :: (d2, p2) :: rest, _ => by
    intro sh inv
    have ih := simSteps_invested_getLast c ((d2, p2) :: rest) (by simp) (sh + c / p) (inv + c)
    simp only [simSteps, List.map_cons] at ih ⊢
    rw [List.getLast?_cons_cons, ih]
    congr 1
    simp only [List.length_cons]
    push_cast
    ring

/-! ### C1: treatment of non-positive prices -/

/-- C1 counterexample: a series whose only price is the non-positive
value −1 still produces an output row (with a purchase booked and
`total_invested` increased), contradicting the claim that such points
are skipped and produce no output row. -/
theorem c1_counterexample :
    (-1 : ℚ) ≤ 0 ∧
      calculate_portfolio [(⟨0, 1⟩, some (-1))] 100 = [⟨⟨0, 1⟩, 100, 100⟩] := by
  constructor
  · norm_num
  · norm_num [calculate_portfolio, simSteps, dropna]

/-- C1 amended: `calculate_portfolio` skips exactly the observations
with a missing price; every observation with a defined price — strictly
positive or not — contributes a purchase and an output row, so the
output rows correspond one-to-one (dates included) to the defined
prices of the input. -/
theorem c1_amended_thm (c : ℚ) (xs : List Obs) :
    (calculate_portfolio xs c).map SimPoint.date = (dropna xs).map Prod.fst := by
  rw [calculate_portfolio_map_date]
  exact simSteps_map_date c (dropna xs) 0 0

/-! ### C3: final total invested -/

/-- C3 counterexample: with contribution 100, the series
[(m0, 1), (m1, −1)] contains exactly one strictly positive price, yet
the final `total_invested` is 200, not 100 × 1: the loop also charges a
contribution for the non-positive price. -/
theorem c3_counterexample :
    positivePriceCount [(⟨0, 1⟩, some 1), (⟨1, 1⟩, some (-1))] = 1 ∧
      ((calculate_portfolio [(⟨0, 1⟩, some 1), (⟨1, 1⟩, some (-1))] 100).map
          SimPoint.invested).getLast? = some 200 ∧
      (200 : ℚ) ≠ 100 * 1 := by
  refine ⟨by decide, ?_, by norm_num⟩
  rw [calculate_portfolio_map_invested]
  norm_num [simSteps, dropna]

/-- C3 amended: for every contribution `c` and every series with
`n ≥ 1` defined (non-missing) prices, the final `total_invested`
equals `c × n`, where `n` counts the defined prices (of any sign), not
only the strictly positive ones. -/
theorem c3_amended_thm (c : ℚ) (xs : List Obs) (h : dropna xs ≠ []) :
    ((calculate_portfolio xs c).map SimPoint.invested).getLast?
      = some (c * ((dropna xs).length : ℚ)) := by
  rw [calculate_portfolio_map_invested]
  have h2 := simSteps_invested_getLast c (dropna xs) h 0 0
  simpa using h2

/-- Witness for C3 amended: one defined price, contribution 100,
final invested 100. -/
theorem c3_amended_witness :
    ((calculate_portfolio [(⟨0, 1⟩, some 2)] 100).map SimPoint.invested).getLast?
      = some 100 := by
  have h := c3_amended_thm 100 [(⟨0, 1⟩, some 2)] (by simp [dropna])
  simpa [dropna] using h

/-! ### C5: monotonicity of the running totals -/

/-- With a non-negative contribution and strictly positive prices, the
running `shares_owned` never decreases along the loop. -/
theorem simSteps_shares_chain (c : ℚ) (hc : 0 ≤ c) :
    ∀ (ps : List (Date × ℚ)), (∀ q ∈ ps, 0 < q.2) → ∀ (sh inv : ℚ),
      List.Chain' (· ≤ ·) (sh :: (simSteps c sh inv ps).map SimStep.shares)
  | [], _, sh, inv => by simp [simSteps]
  | (d, p) :: rest, hp, sh, inv => by
    have hp0 : 0 < p := hp (d, p) (List.mem_cons_self _ _)
    have ih := simSteps_shares_chain c hc rest
      (fun q hq => hp q (List.mem_cons_of_mem _ hq)) (sh + c / p) (inv + c)
    simp only [simSteps, List.map_cons]
    exact List.chain'_cons.mpr ⟨le_add_of_nonneg_right (div_nonneg hc hp0.le), ih⟩

/-- The running `total_invested` grows by exactly `c` at every emitted
row, whatever the prices are. -/
theorem simSteps_invested_chain (c : ℚ) :
    ∀ (ps : List (Date × ℚ)) (sh inv : ℚ),
      List.Chain' (fun a b => b = a + c) (inv :: (simSteps c sh inv ps).map SimStep.invested)
  | [], _, _ => by simp [simSteps]
  | (d, p) :: rest, sh, inv => by
    have ih := simSteps_invested_chain c rest (sh + c / p) (inv + c)
    simp only [simSteps, List.map_cons]
    exact List.chain'_cons.mpr ⟨rfl, ih⟩

/-- C5 counterexample: the claim fails as stated.  With contribution
100 and the defined prices [1, −1], the running `shares_owned` sequence
is [100, 0], which decreases; and with the degenerate contribution 0
(accepted by the spec) the `total_invested` sequence [0, 0] is not
strictly increasing. -/
theorem c5_counterexample :
    ¬ List.Chain' (· ≤ ·)
        ((simSteps 100 0 0 (dropna [(⟨0, 1⟩, some 1), (⟨1, 1⟩, some (-1))])).map
          SimStep.shares) ∧
      ¬ List.Chain' (· < ·)
        ((0 : ℚ) :: (calculate_portfolio [(⟨0, 1⟩, some 1), (⟨1, 1⟩, some 1)] 0).map
          SimPoint.invested) := by
  constructor
  · have h : (simSteps 100 0 0 (dropna [(⟨0, 1⟩, some 1), (⟨1, 1⟩, some (-1))])).map
        SimStep.shares = [100, 0] := by
      norm_num [simSteps, dropna]
    rw [h, List.chain'_cons]
    norm_num
  · have h : (calculate_portfolio [(⟨0, 1⟩, some 1), (⟨1, 1⟩, some 1)] 0).map
        SimPoint.invested = [0, 0] := by
      rw [calculate_portfolio_map_invested]
      norm_num [simSteps, dropna]
    rw [h, List.chain'_cons]
    norm_num

/-- C5 amended: in every simulation over a series whose defined prices
are all strictly positive and with a strictly positive contribution,
the running `shares_owned` (started at 0) is non-decreasing, and
`total_invested` (started at 0) grows by exactly the contribution at
each emitted row — in particular it is strictly increasing. -/
theorem c5_amended_thm (c : ℚ) (xs : List Obs) (hc : 0 < c)
    (hp : ∀ q ∈ dropna xs, 0 < q.2) :
    List.Chain' (· ≤ ·)
        ((0 : ℚ) :: (simSteps c 0 0 (dropna xs)).map SimStep.shares) ∧
      List.Chain' (fun a b => b = a + c)
        ((0 : ℚ) :: (calculate_portfolio xs c).map SimPoint.invested) ∧
      List.Chain' (· < ·)
        ((0 : ℚ) :: (calculate_portfolio xs c).map SimPoint.invested) := by
  have hinv : List.Chain' (fun a b => b = a + c)
      ((0 : ℚ) :: (calculate_portfolio xs c).map SimPoint.invested) := by
    rw [calculate_portfolio_map_invested]
    exact simSteps_invested_chain c (dropna xs) 0 0
  refine ⟨simSteps_shares_chain c hc.le (dropna xs) hp 0 0, hinv, ?_⟩
  exact hinv.imp (fun a b hab => by rw [hab]; exact lt_add_of_pos_right a hc)

/-- Witness for C5 amended: contribution 100, prices [1, 2]. -/
theorem c5_amended_witness :
    List.Chain' (· ≤ ·)
        ((0 : ℚ) :: (simSteps 100 0 0
          (dropna [(⟨0, 1⟩, some 1), (⟨1, 1⟩, some 2)])).map SimStep.shares) ∧
      List.Chain' (fun a b => b = a + 100)
        ((0 : ℚ) :: (calculate_portfolio [(⟨0, 1⟩, some 1), (⟨1, 1⟩, some 2)] 100).map
          SimPoint.invested) ∧
      List.Chain' (· < ·)
        ((0 : ℚ) :: (calculate_portfolio [(⟨0, 1⟩, some 1), (⟨1, 1⟩, some 2)] 100).map
          SimPoint.invested) :=
  c5_amended_thm 100 [(⟨0, 1⟩, some 1), (⟨1, 1⟩, some 2)] (by norm_num) (by decide)

/-! ### C6: constant prices give zero gain -/

/-- Invariant of the loop under a constant price `p ≠ 0`: if
`shares_owned * p = total_invested` on entry, every emitted row has
`value = invested`. -/
theorem simSteps_value_eq_invested (c p : ℚ) (hp : p ≠ 0) :
    ∀ (ps : List (Date × ℚ)), (∀ q ∈ ps, q.2 = p) → ∀ (sh inv : ℚ),
      sh * p = inv → ∀ st ∈ simSteps c sh inv ps, st.value = st.invested
  | [], _, sh, inv, _, st, hst => absurd hst (List.not_mem_nil st)
  | (d, q) :: rest, hall, sh, inv, hinv, st, hst => by
    have hq : q = p := hall (d, q) (List.mem_cons_self _ _)
    subst hq
    have hstep : (sh + c / q) * q = inv + c := by
      rw [add_mul, div_mul_cancel₀ _ hp, hinv]
    rcases List.mem_cons.mp hst with h | h
    · rw [h]
      exact hstep
    · exact simSteps_value_eq_invested c q hp rest
        (fun r hr => hall r (List.mem_cons_of_mem _ hr)) _ _ hstep st h

/-- C6 confirmed: if every price of the series equals the same strictly
positive value `p`, then every emitted row of `calculate_portfolio` has
`Portfolio Value` equal to `Total Invested` exactly. -/
theorem c6_thm (c p : ℚ) (xs : List Obs) (hp : 0 < p)
    (hall : ∀ q ∈ xs, q.2 = some p) :
    ∀ pt ∈ calculate_portfolio xs c, pt.value = pt.invested := by
  intro pt hpt
  unfold calculate_portfolio at hpt
  rcases List.mem_map.mp hpt with ⟨st, hst, rfl⟩
  have hd : ∀ q ∈ dropna xs, q.2 = p := by
    intro q hq
    rcases List.mem_filterMap.mp hq with ⟨a, ha, hfa⟩
    rcases Option.map_eq_some'.mp hfa with ⟨v, hv, hqv⟩
    have : some v = some p := by rw [← hv, hall a ha]
    rw [← hqv]
    exact Option.some.inj this
  exact simSteps_value_eq_invested c p hp.ne' (dropna xs) hd 0 0 (zero_mul p) st hst

/-- Witness for C6: the one-point series with constant price 2 and
contribution 100 yields the row (m0, 100, 100), whose value equals its
invested amount. -/
theorem c6_witness :
    (⟨⟨0, 1⟩, 100, 100⟩ : SimPoint) ∈ calculate_portfolio [(⟨0, 1⟩, some 2)] 100 ∧
      (⟨⟨0, 1⟩, (100 : ℚ), (100 : ℚ)⟩ : SimPoint).value
        = (⟨⟨0, 1⟩, (100 : ℚ), (100 : ℚ)⟩ : SimPoint).invested := by
  have hmem : (⟨⟨0, 1⟩, 100, 100⟩ : SimPoint)
      ∈ calculate_portfolio [(⟨0, 1⟩, some 2)] 100 := by
    norm_num [calculate_portfolio, simSteps, dropna]
  exact ⟨hmem, c6_thm 100 2 [(⟨0, 1⟩, some 2)] (by norm_num) (by decide) _ hmem⟩

/-! ### C4: return percent at zero invested -/

/-- C4 counterexample: with `final_invested = 0` the metrics loop still
emits an entry whose percent field is the division formula evaluated at
the zero divisor (`return_pct 5 0`), instead of reporting the return
percent as undefined: line 256 of src/app.py has no guard.  (In the
implementation's floating point the division yields an infinity; the
structural fact refuted here is that a value is produced at all.) -/
theorem c4_counterexample :
    summarize 0 [("A", (5 : ℚ))] = [("A", 5, return_pct 5 0)] ∧
      (summarize 0 [("A", (5 : ℚ))]).length = 1 :=
  ⟨rfl, rfl⟩

/-- C4 amended: the summarizer computes
`returnPercent = (finalValue / finalInvested − 1) × 100` for every
included instrument unconditionally; a zero `finalInvested` is not
special-cased (the float division is evaluated, yielding an
infinite/NaN value, not an undefined report). -/
theorem c4_amended_thm (fi : ℚ) (finals : List (String × ℚ)) :
    (summarize fi finals).length = finals.length ∧
      ∀ p ∈ finals, (p.1, p.2, (p.2 / fi - 1) * 100) ∈ summarize fi finals := by
  refine ⟨List.length_map _ _, ?_⟩
  intro p hp
  have h : (p.1, p.2, (p.2 / fi - 1) * 100) = (p.1, p.2, return_pct p.2 fi) := rfl
  rw [h]
  exact List.mem_map.mpr ⟨p, hp, rfl⟩

/-- Witness for C4 amended at `finalInvested = 3`, one instrument. -/
theorem c4_amended_witness :
    (summarize 3 [("A", (6 : ℚ))]).length = 1 ∧
      ("A", (6 : ℚ), ((6 : ℚ) / 3 - 1) * 100) ∈ summarize 3 [("A", (6 : ℚ))] :=
  ⟨(c4_amended_thm 3 [("A", 6)]).1,
    (c4_amended_thm 3 [("A", 6)]).2 ("A", 6) (List.mem_singleton.mpr rfl)⟩

/-! ### C10: ticker deduplication -/

/-- The deduplication loop never reorders: its output is a sublist of
its input. -/
theorem dedupeAux_sublist :
    ∀ (l : List (String × String)) (seen : List String),
      List.Sublist (dedupeAux seen l) l
  | [], _ => List.Sublist.refl []
  | p :: rest, seen => by
    unfold dedupeAux
    by_cases h : p.2 ∈ seen
    · simp only [if_pos h]
      exact (dedupeAux_sublist rest seen).cons p
    · simp only [if_neg h]
      exact (dedupeAux_sublist rest (p.2 :: seen)).cons₂ p

/-- The symbols kept by the loop are pairwise distinct and avoid the
`seen` accumulator. -/
theorem dedupeAux_nodup :
    ∀ (l : List (String × String)) (seen : List String),
      ((dedupeAux seen l).map Prod.snd).Nodup ∧
        ∀ s ∈ (dedupeAux seen l).map Prod.snd, s ∉ seen
  | [], _ => ⟨List.nodup_nil, by simp [dedupeAux]⟩
  | p :: rest, seen => by
    unfold dedupeAux
    by_cases h : p.2 ∈ seen
    · simpa only [if_pos h] using dedupeAux_nodup rest seen
    · simp only [if_neg h, List.map_cons, List.nodup_cons]
      have ih := dedupeAux_nodup rest (p.2 :: seen)
      refine ⟨⟨fun hmem => ?_, ih.1⟩, ?_⟩
      · exact (ih.2 p.2 hmem) (List.mem_cons_self _ _)
      · intro s hs
        rcases List.mem_cons.mp hs with h1 | h1
        · rw [h1]; exact h
        · exact fun hseen => (ih.2 s h1) (List.mem_cons_of_mem _ hseen)

/-- The loop with accumulator `seen` behaves like first-occurrence
keeping on the input with the already-seen symbols removed. -/
theorem dedupeAux_eq_specKeepFirst :
    ∀ (l : List (String × String)) (seen : List String),
      dedupeAux seen l = specKeepFirst (l.filter (fun q => q.2 ∉ seen)) := by
  intro l
  induction l with
  | nil => intro seen; simp [dedupeAux, specKeepFirst]
  | cons p rest ih =>
    intro seen
    unfold dedupeAux
    by_cases h : p.2 ∈ seen
    · rw [if_pos h, List.filter_cons, if_neg (by simpa using h), ih seen]
    · rw [if_neg h, List.filter_cons, if_pos (by simpa using h), ih (p.2 :: seen)]
      have hfilters : (rest.filter (fun q => q.2 ∉ seen)).filter (fun q => q.2 ≠ p.2)
          = rest.filter (fun q => q.2 ∉ p.2 :: seen) := by
        rw [List.filter_filter]
        apply List.filter_congr
        intro q _
        by_cases h1 : q.2 = p.2 <;> by_cases h2 : q.2 ∈ seen <;>
          simp [h1, h2]
      rw [specKeepFirst, hfilters]

/-- C10 confirmed: the caller-side deduplication keeps, for every
symbol, exactly the first (display name, symbol) entry carrying that
symbol and drops the later ones (it equals the first-occurrence
filter), its output has pairwise-distinct symbols, and it preserves the
relative order of the kept entries (the output is a sublist of the
input). -/
theorem c10_thm (l : List (String × String)) :
    unique_tickers l = specKeepFirst l ∧
      ((unique_tickers l).map Prod.snd).Nodup ∧
      List.Sublist (unique_tickers l) l := by
  refine ⟨?_, (dedupeAux_nodup l []).1, dedupeAux_sublist l []⟩
  have h := dedupeAux_eq_specKeepFirst l []
  simpa [unique_tickers] using h

/-! ### C2: the shared timestamp axis -/

/-- C2 counterexample: with two non-empty per-instrument results, one
dated month 0 and one dated month 1, the shared axis is the first
instrument's index [month 0] only; instrument B's timestamp (month 1)
is a timestamp of a non-empty result, yet it is absent from the axis —
so the axis is not the chronological union of all results' timestamps. -/
theorem c2_counterexample :
    axisOf [("A", [⟨⟨0, 1⟩, 100, 100⟩]), ("B", [⟨⟨1, 1⟩, 100, 100⟩])] = [⟨0, 1⟩] ∧
      (("B", [⟨⟨1, 1⟩, (100 : ℚ), (100 : ℚ)⟩]) : String × SimResult)
        ∈ ([("A", [⟨⟨0, 1⟩, 100, 100⟩]), ("B", [⟨⟨1, 1⟩, 100, 100⟩])] :
            List (String × SimResult)) ∧
      ([⟨⟨1, 1⟩, (100 : ℚ), (100 : ℚ)⟩] : SimResult) ≠ [] ∧
      (⟨1, 1⟩ : Date) ∉ axisOf [("A", [⟨⟨0, 1⟩, 100, 100⟩]), ("B", [⟨⟨1, 1⟩, 100, 100⟩])] := by
  refine ⟨rfl, by decide, by decide, by decide⟩

/-- C2 amended: the shared timestamp axis equals the timestamps of the
first non-empty result in caller order (not the union of all results'
timestamps); the baseline invested series is taken from that same first
result, and every included instrument's value series is reindexed onto
that axis (one aligned entry per axis timestamp). -/
theorem c2_amended_thm (rs : List (String × SimResult)) (nm : String) (r : SimResult)
    (rest : List (String × SimResult)) (h : nonEmptyResults rs = (nm, r) :: rest) :
    axisOf rs = r.map SimPoint.date ∧
      investedSeries rs = r.map SimPoint.invested ∧
      ∀ p ∈ combinedColumns rs, p.2.length = (axisOf rs).length := by
  refine ⟨by unfold axisOf; rw [h], by unfold investedSeries; rw [h], ?_⟩
  intro p hp
  unfold combinedColumns at hp
  rcases List.mem_map.mp hp with ⟨q, _, rfl⟩
  simp [alignColumn]

/-- Witness for C2 amended: a single one-point result. -/
theorem c2_amended_witness :
    axisOf [("A", [⟨⟨0, 1⟩, 100, 100⟩])] = [⟨0, 1⟩] ∧
      investedSeries [("A", [⟨⟨0, 1⟩, 100, 100⟩])] = [100] ∧
      ∀ p ∈ combinedColumns [("A", [⟨⟨0, 1⟩, 100, 100⟩])],
        p.2.length = (axisOf [("A", [⟨⟨0, 1⟩, 100, 100⟩])]).length := by
  have h := c2_amended_thm [("A", [⟨⟨0, 1⟩, 100, 100⟩])] "A" [⟨⟨0, 1⟩, 100, 100⟩] [] rfl
  exact ⟨by rw [h.1]; rfl, by rw [h.2.1]; rfl, h.2.2⟩

/-! ### C8: forward fill never invents leading values -/

theorem Date.before_trans {a b c : Date} (h1 : a.before b) (h2 : b.before c) :
    a.before c := by
  unfold Date.before at h1 h2 ⊢
  rcases h1 with h1 | ⟨h1, h1'⟩ <;> rcases h2 with h2 | ⟨h2, h2'⟩ <;> omega

theorem Date.before_ne {a b : Date} (h : a.before b) : a ≠ b := by
  unfold Date.before at h
  intro he
  rw [he] at h
  rcases h with h | ⟨_, h⟩ <;> omega

theorem ffillAux_length :
    ∀ (l : List (Option ℚ)) (carry : Option ℚ), (ffillAux carry l).length = l.length
  | [], _ => rfl
  | none :: rest, carry => by simp [ffillAux, ffillAux_length rest]
  | some v :: rest, carry => by simp [ffillAux, ffillAux_length rest]

/-- If every entry up to position `i` is missing, forward fill writes
the incoming carry at position `i`. -/
theorem ffillAux_get?_of_all_none :
    ∀ (l : List (Option ℚ)) (carry : Option ℚ) (i : ℕ), i < l.length →
      (∀ j, j ≤ i → l.get? j = some none) → (ffillAux carry l).get? i = some carry
  | [], _, i, hi, _ => absurd hi (by simp)
  | x :: rest, carry, 0, _, hall => by
    have h0 := hall 0 (le_refl 0)
    simp only [List.get?] at h0
    rw [Option.some.inj h0]
    rfl
  | x :: rest, carry, i + 1, hi, hall => by
    have h0 := hall 0 (Nat.zero_le _)
    simp only [List.get?] at h0
    rw [Option.some.inj h0]
    have ih := ffillAux_get?_of_all_none rest carry i (by simpa using hi)
      (fun j hj => by simpa using hall (j + 1) (Nat.succ_le_succ hj))
    simpa [ffillAux] using ih

/-- A present entry of the forward-filled column comes from an entry of
the original column at the same or an earlier position, or from the
incoming carry. -/
theorem ffillAux_get?_some :
    ∀ (l : List (Option ℚ)) (carry : Option ℚ) (i : ℕ) (v : ℚ),
      (ffillAux carry l).get? i = some (some v) →
      carry = some v ∨ ∃ j, j ≤ i ∧ l.get? j = some (some v)
  | [], _, i, v, h => by simp [ffillAux] at h
  | none :: rest, carry, 0, v, h => by
    left
    simpa [ffillAux] using h
  | none :: rest, carry, i + 1, v, h => by
    have h' : (ffillAux carry rest).get? i = some (some v) := by
      simpa [ffillAux] using h
    rcases ffillAux_get?_some rest carry i v h' with hc | ⟨j, hj, hl⟩
    · exact Or.inl hc
    · exact Or.inr ⟨j + 1, Nat.succ_le_succ hj, by simpa using hl⟩
  | some w :: rest, carry, 0, v, h => by
    right
    exact ⟨0, le_refl 0, by simpa [ffillAux] using h⟩
  | some w :: rest, carry, i + 1, v, h => by
    have h' : (ffillAux (some w) rest).get? i = some (some v) := by
      simpa [ffillAux] using h
    rcases ffillAux_get?_some rest (some w) i v h' with hc | ⟨j, hj, hl⟩
    · exact Or.inr ⟨0, Nat.zero_le _, by simpa using hc⟩
    · exact Or.inr ⟨j + 1, Nat.succ_le_succ hj, by simpa using hl⟩

theorem alignColumn_get? (axis : List Date) (res : SimResult) (j : ℕ) :
    (alignColumn axis res).get? j
      = (axis.get? j).map
          (fun d => (res.find? (fun pt => decide (pt.date = d))).map SimPoint.value) := by
  simp [alignColumn]

/-- C8 confirmed: on a chronologically sorted shared axis, any axis
position strictly before every observation of an instrument stays
missing after forward fill (never zero-filled, never invented), and any
present entry of the forward-filled column is the value of an actual
observation of that instrument located at the same or an earlier axis
position. -/
theorem c8_thm (rs : List (String × SimResult)) (nm : String) (res : SimResult)
    (hmem : (nm, res) ∈ nonEmptyResults rs)
    (hsort : (axisOf rs).Pairwise Date.before)
    (i : ℕ) (hi : i < (axisOf rs).length)
    (hlead : ∀ pt ∈ res, ((axisOf rs).get ⟨i, hi⟩).before pt.date) :
    (nm, ffill (alignColumn (axisOf rs) res)) ∈ aggregatedColumns rs ∧
      (ffill (alignColumn (axisOf rs) res)).get? i = some none ∧
      ∀ k v, (ffill (alignColumn (axisOf rs) res)).get? k = some (some v) →
        ∃ pt ∈ res, pt.value = v ∧ ∃ j, j ≤ k ∧ (axisOf rs).get? j = some pt.date := by
  refine ⟨?_, ?_, ?_⟩
  · unfold aggregatedColumns combinedColumns
    rw [List.map_map]
    exact List.mem_map.mpr ⟨(nm, res), hmem, rfl⟩
  · apply ffillAux_get?_of_all_none
    · simpa [alignColumn] using hi
    · intro j hj
      have hjlt : j < (axisOf rs).length := lt_of_le_of_lt hj hi
      rw [alignColumn_get?, List.get?_eq_get hjlt]
      have hfind : res.find? (fun pt => decide (pt.date = (axisOf rs).get ⟨j, hjlt⟩)) = none := by
        rw [List.find?_eq_none]
        intro pt hpt
        simp only [decide_eq_true_eq]
        intro heq
        have hbefore : ((axisOf rs).get ⟨j, hjlt⟩).before pt.date := by
          rcases Nat.lt_or_ge j i with hlt | hge
          · exact Date.before_trans
              ((List.pairwise_iff_get.mp hsort) ⟨j, hjlt⟩ ⟨i, hi⟩ hlt)
              (hlead pt hpt)
          · have hji : j = i := le_antisymm hj hge
            subst hji
            exact hlead pt hpt
        exact Date.before_ne hbefore heq.symm
      simp only [Option.map_some']
      rw [hfind]
      rfl
  · intro k v h
    rcases ffillAux_get?_some _ none k v h with hc | ⟨j, hj, hl⟩
    · exact absurd hc (by simp)
    · rw [alignColumn_get?] at hl
      rcases Option.map_eq_some'.mp hl with ⟨d, hd, hfd⟩
      rcases Option.map_eq_some'.mp hfd with ⟨pt, hfind, hval⟩
      have hpt : pt ∈ res := List.mem_of_find?_eq_some hfind
      have hdate : pt.date = d := by
        have := List.find?_some hfind
        simpa using this
      exact ⟨pt, hpt, hval, j, hj, by rw [hd, hdate]⟩

/-- Witness for C8: instrument B starts one month after the axis
start; position 0 of its forward-filled column is missing. -/
theorem c8_witness :
    (("B", ffill (alignColumn
        (axisOf [("A", [⟨⟨0, 1⟩, 100, 100⟩, ⟨⟨1, 1⟩, 200, 200⟩]),
                 ("B", [⟨⟨1, 1⟩, 100, 100⟩])])
        [⟨⟨1, 1⟩, 100, 100⟩])) : String × List (Option ℚ))
      ∈ aggregatedColumns [("A", [⟨⟨0, 1⟩, 100, 100⟩, ⟨⟨1, 1⟩, 200, 200⟩]),
                           ("B", [⟨⟨1, 1⟩, 100, 100⟩])] ∧
      (ffill (alignColumn
        (axisOf [("A", [⟨⟨0, 1⟩, 100, 100⟩, ⟨⟨1, 1⟩, 200, 200⟩]),
                 ("B", [⟨⟨1, 1⟩, 100, 100⟩])])
        [⟨⟨1, 1⟩, 100, 100⟩])).get? 0 = some none ∧
      ∀ k v, (ffill (alignColumn
        (axisOf [("A", [⟨⟨0, 1⟩, 100, 100⟩, ⟨⟨1, 1⟩, 200, 200⟩]),
                 ("B", [⟨⟨1, 1⟩, 100, 100⟩])])
        [⟨⟨1, 1⟩, 100, 100⟩])).get? k = some (some v) →
        ∃ pt ∈ ([⟨⟨1, 1⟩, 100, 100⟩] : SimResult), pt.value = v ∧
          ∃ j, j ≤ k ∧ (axisOf [("A", [⟨⟨0, 1⟩, 100, 100⟩, ⟨⟨1, 1⟩, 200, 200⟩]),
                               ("B", [⟨⟨1, 1⟩, 100, 100⟩])]).get? j = some pt.date :=
  c8_thm [("A", [⟨⟨0, 1⟩, 100, 100⟩, ⟨⟨1, 1⟩, 200, 200⟩]), ("B", [⟨⟨1, 1⟩, 100, 100⟩])]
    "B" [⟨⟨1, 1⟩, 100, 100⟩] (by decide) (by decide) 0 (by decide) (by decide)

/-! ### Helper lemmas about the resampling span -/

theorem foldl_min_le_init : ∀ (l : List ℕ) (a : ℕ), l.foldl Nat.min a ≤ a
  | [], a => le_refl a
  | b :: t, a => le_trans (foldl_min_le_init t (Nat.min a b)) (Nat.min_le_left a b)

theorem le_foldl_max_init : ∀ (l : List ℕ) (a : ℕ), a ≤ l.foldl Nat.max a
  | [], a => le_refl a
  | b :: t, a => le_trans (Nat.le_max_left a b) (le_foldl_max_init t (Nat.max a b))

theorem foldl_min_le_mem : ∀ (l : List ℕ) (a b : ℕ), b ∈ l → l.foldl Nat.min a ≤ b
  | [], _, b, h => absurd h (List.not_mem_nil b)
  | x :: t, a, b, h => by
    rcases List.mem_cons.mp h with h1 | h1
    · rw [h1]
      exact le_trans (foldl_min_le_init t (Nat.min a x)) (Nat.min_le_right a x)
    · exact foldl_min_le_mem t (Nat.min a x) b h1

theorem mem_le_foldl_max : ∀ (l : List ℕ) (a b : ℕ), b ∈ l → b ≤ l.foldl Nat.max a
  | [], _, b, h => absurd h (List.not_mem_nil b)
  | x :: t, a, b, h => by
    rcases List.mem_cons.mp h with h1 | h1
    · rw [h1]
      exact le_trans (Nat.le_max_right a x) (le_foldl_max_init t (Nat.max a x))
    · exact mem_le_foldl_max t (Nat.max a x) b h1

theorem foldl_min_eq_of_le : ∀ (l : List ℕ) (a : ℕ), (∀ b ∈ l, a ≤ b) → l.foldl Nat.min a = a
  | [], _, _ => rfl
  | x :: t, a, h => by
    have hx : Nat.min a x = a := Nat.min_eq_left (h x (List.mem_cons_self _ _))
    show t.foldl Nat.min (Nat.min a x) = a
    rw [hx]
    exact foldl_min_eq_of_le t a (fun b hb => h b (List.mem_cons_of_mem _ hb))

theorem foldl_max_eq_of : ∀ (l : List ℕ) (a c : ℕ), (∀ b ∈ l, b ≤ c) → (c ∈ l ∨ a = c) →
    a ≤ c → l.foldl Nat.max a = c
  | [], _, c, _, hor, _ => by
    rcases hor with h | h
    · exact absurd h (List.not_mem_nil c)
    · exact h
  | x :: t, a, c, hb, hor, hac => by
    have hxc : x ≤ c := hb x (List.mem_cons_self _ _)
    show t.foldl Nat.max (Nat.max a x) = c
    apply foldl_max_eq_of t (Nat.max a x) c (fun b hb' => hb b (List.mem_cons_of_mem _ hb'))
    · rcases hor with h | h
      · rcases List.mem_cons.mp h with h1 | h1
        · right
          rw [h1] at hac ⊢
          exact Nat.max_eq_right hac
        · left
          exact h1
      · right
        rw [← h] at hxc ⊢
        exact Nat.max_eq_left hxc
    · exact Nat.max_le.mpr ⟨hac, hxc⟩

/-- Filtering the canonical month grid for one month keeps exactly its
one row. -/
theorem filter_month_map_range (g : ℕ → Option ℚ) (lo : ℕ) :
    ∀ (m i : ℕ), i < m →
      ((List.range m).map (fun j => ((⟨lo + j, 1⟩ : Date), g j))).filter
          (fun p => p.1.month == lo + i)
        = [(⟨lo + i, 1⟩, g i)] := by
  intro m
  induction m with
  | zero => intro i hi; omega
  | succ k ih =>
    intro i hi
    rw [List.range_succ, List.map_append, List.filter_append]
    rcases Nat.lt_or_ge i k with hik | hik
    · rw [ih i hik]
      have hne : (((⟨lo + k, 1⟩ : Date), g k).1.month == lo + i) = false := by
        rw [beq_eq_false_iff_ne]
        show lo + k ≠ lo + i
        omega
      simp [hne]
    · have hk : i = k := by omega
      subst hk
      have h1 : ((List.range i).map (fun j => ((⟨lo + j, 1⟩ : Date), g j))).filter
          (fun p => p.1.month == lo + i) = [] := by
        rw [List.filter_eq_nil_iff]
        intro a ha
        rcases List.mem_map.mp ha with ⟨j, hj, rfl⟩
        have hji : j < i := List.mem_range.mp hj
        simp only [beq_iff_eq]
        show ¬ lo + j = lo + i
        omega
      rw [h1]
      simp

theorem head?_filterMap_snd_singleton (d : Date) (v : Option ℚ) :
    (([(d, v)] : List Obs).filterMap Prod.snd).head? = v := by
  cases v <;> rfl

/-- The resampler's value for a month of the canonical grid is that
month's stored value. -/
theorem firstPriceInMonth_map_range (g : ℕ → Option ℚ) (lo m i : ℕ) (h : i < m) :
    firstPriceInMonth (lo + i) ((List.range m).map (fun j => ((⟨lo + j, 1⟩ : Date), g j)))
      = g i := by
  unfold firstPriceInMonth
  rw [filter_month_map_range g lo m i h]
  exact head?_filterMap_snd_singleton _ _

/-- Resampling a canonical month grid (one row per month, labelled with
the month start) reproduces a grid over the same months. -/
theorem resampleMS_canonical (lo m : ℕ) (g : ℕ → Option ℚ) :
    resampleMS ((List.range (m + 1)).map (fun j => ((⟨lo + j, 1⟩ : Date), g j)))
      = (List.range (m + 1)).map
          (fun i => ((⟨lo + i, 1⟩ : Date),
            firstPriceInMonth (lo + i)
              ((List.range (m + 1)).map (fun j => ((⟨lo + j, 1⟩ : Date), g j))))) := by
  have hdecomp : (List.range (m + 1)).map (fun j => ((⟨lo + j, 1⟩ : Date), g j))
      = ((⟨lo + 0, 1⟩ : Date), g 0)
        :: (List.range m).map (fun j => ((⟨lo + (j + 1), 1⟩ : Date), g (j + 1))) := by
    rw [List.range_succ_eq_map, List.map_cons, List.map_map]
    rfl
  have hmonths : monthsOf ((List.range m).map (fun j => ((⟨lo + (j + 1), 1⟩ : Date), g (j + 1))))
      = (List.range m).map (fun j => lo + (j + 1)) := by
    unfold monthsOf
    rw [List.map_map]
    rfl
  have hlo : loMonth (lo + 0)
      ((List.range m).map (fun j => ((⟨lo + (j + 1), 1⟩ : Date), g (j + 1)))) = lo + 0 := by
    unfold loMonth
    rw [hmonths]
    apply foldl_min_eq_of_le
    intro b hb
    rcases List.mem_map.mp hb with ⟨j, _, rfl⟩
    omega
  have hhi : hiMonth (lo + 0)
      ((List.range m).map (fun j => ((⟨lo + (j + 1), 1⟩ : Date), g (j + 1)))) = lo + m := by
    unfold hiMonth
    rw [hmonths]
    apply foldl_max_eq_of
    · intro b hb
      rcases List.mem_map.mp hb with ⟨j, hj, rfl⟩
      have := List.mem_range.mp hj
      omega
    · cases m with
      | zero => right; rfl
      | succ k =>
        left
        exact List.mem_map.mpr ⟨k, List.mem_range.mpr (Nat.lt_succ_self k), rfl⟩
    · omega
  rw [hdecomp]
  simp only [resampleMS]
  rw [hlo, hhi]
  rw [show lo + m + 1 - (lo + 0) = m + 1 by omega]
  rw [← hdecomp]
  rfl

/-! ### C7: resampling is idempotent -/

/-- C7 confirmed: applying the month resampler to its own output
returns the output unchanged (the output is a month-start grid, and
regrouping it by month finds exactly one row per month). -/
theorem c7_thm (xs : List Obs) : resampleMS (resampleMS xs) = resampleMS xs := by
  cases xs with
  | nil => rfl
  | cons x rest =>
    obtain ⟨m, hm⟩ : ∃ m, hiMonth x.1.month rest + 1 - loMonth x.1.month rest = m + 1 := by
      refine ⟨hiMonth x.1.month rest - loMonth x.1.month rest, ?_⟩
      have h1 := foldl_min_le_init (monthsOf rest) x.1.month
      have h2 := le_foldl_max_init (monthsOf rest) x.1.month
      unfold loMonth hiMonth
      omega
    have hr : resampleMS (x :: rest)
        = (List.range (m + 1)).map
            (fun j => ((⟨loMonth x.1.month rest + j, 1⟩ : Date),
              firstPriceInMonth (loMonth x.1.month rest + j) (x :: rest))) := by
      simp only [resampleMS]
      rw [hm]
    rw [hr, resampleMS_canonical]
    apply List.map_congr_left
    intro i hi
    have hi' : i < m + 1 := List.mem_range.mp hi
    congr 1
    exact firstPriceInMonth_map_range
      (fun j => firstPriceInMonth (loMonth x.1.month rest + j) (x :: rest))
      (loMonth x.1.month rest) (m + 1) i hi'

/-! ### C9: labels and contents of the resampled series -/

/-- On a chronologically sorted observation list, the first present
price (pandas `first`, which skips NaN) belongs to the
earliest-timestamped observation with a defined price. -/
theorem head?_filterMap_is_earliest :
    ∀ (l : List Obs), List.Pairwise (fun a b : Obs => a.1.before b.1) l →
      ∀ q : ℚ, (l.filterMap Prod.snd).head? = some q →
        ∃ obs ∈ l, obs.2 = some q ∧
          ∀ o2 ∈ l, o2.2 ≠ none → obs.1 = o2.1 ∨ obs.1.before o2.1
  | [], _, q, h => by simp at h
  | (d, none) :: t, hp, q, h => by
    have h' : (t.filterMap Prod.snd).head? = some q := by simpa using h
    rcases head?_filterMap_is_earliest t hp.of_cons q h' with ⟨obs, hm, hv, hmin⟩
    refine ⟨obs, List.mem_cons_of_mem _ hm, hv, ?_⟩
    intro o2 ho2 hne
    rcases List.mem_cons.mp ho2 with h1 | h1
    · rw [h1] at hne
      exact absurd rfl hne
    · exact hmin o2 h1 hne
  | (d, some p) :: t, hp, q, h => by
    have hq : p = q := by simpa using h
    subst hq
    refine ⟨(d, some p), List.mem_cons_self _ _, rfl, ?_⟩
    intro o2 ho2 _
    rcases List.mem_cons.mp ho2 with h1 | h1
    · left
      rw [h1]
    · right
      exact (List.pairwise_cons.mp hp).1 o2 h1

/-- The span start is at or before every observed month. -/
theorem loMonth_le_mem (x : Obs) (rest : List Obs) :
    ∀ obs ∈ x :: rest, loMonth x.1.month rest ≤ obs.1.month := by
  intro obs h
  rcases List.mem_cons.mp h with h1 | h1
  · rw [h1]
    exact foldl_min_le_init (monthsOf rest) x.1.month
  · exact foldl_min_le_mem (monthsOf rest) x.1.month obs.1.month
      (List.mem_map.mpr ⟨obs, h1, rfl⟩)

/-- The span end is at or after every observed month. -/
theorem mem_le_hiMonth (x : Obs) (rest : List Obs) :
    ∀ obs ∈ x :: rest, obs.1.month ≤ hiMonth x.1.month rest := by
  intro obs h
  rcases List.mem_cons.mp h with h1 | h1
  · rw [h1]
    exact le_foldl_max_init (monthsOf rest) x.1.month
  · exact mem_le_foldl_max (monthsOf rest) x.1.month obs.1.month
      (List.mem_map.mpr ⟨obs, h1, rfl⟩)

/-- C9 counterexample: the resampled point for a month whose only
observation is on day 5 is labelled with day 1 (the period start), not
with the observation's own date; and a month with no observation at all
(month 1 below) is present in the output with a missing value, not
absent. -/
theorem c9_counterexample :
    resampleMS [(⟨0, 5⟩, some 10)] = [(⟨0, 1⟩, some 10)] ∧
      (⟨0, 1⟩ : Date) ≠ ⟨0, 5⟩ ∧
      resampleMS [(⟨0, 1⟩, some 10), (⟨2, 1⟩, some 20)]
        = [(⟨0, 1⟩, some 10), (⟨1, 1⟩, none), (⟨2, 1⟩, some 20)] :=
  ⟨by decide, by decide, by decide⟩

/-- C9 amended: on a chronologically sorted input, every resampled
point is labelled with the first calendar day (day 1) of its month; its
value, when present, is the price of the earliest observation with a
defined price in that month; a month with no defined price carries a
missing value; and every month between two observed months (missing
periods included) appears in the output. -/
theorem c9_amended_thm (xs : List Obs)
    (hsort : List.Pairwise (fun a b : Obs => a.1.before b.1) xs) :
    (∀ e ∈ resampleMS xs,
        e.1.day = 1 ∧
          (e.2 = none → ∀ obs ∈ xs, obs.1.month = e.1.month → obs.2 = none) ∧
          ∀ q : ℚ, e.2 = some q →
            ∃ obs ∈ xs, obs.1.month = e.1.month ∧ obs.2 = some q ∧
              ∀ o2 ∈ xs, o2.1.month = e.1.month → o2.2 ≠ none →
                obs.1 = o2.1 ∨ obs.1.before o2.1) ∧
      ∀ o1 ∈ xs, ∀ o2 ∈ xs, ∀ mo : ℕ, o1.1.month ≤ mo → mo ≤ o2.1.month →
        ∃ e ∈ resampleMS xs, e.1.month = mo := by
  cases xs with
  | nil =>
    constructor
    · intro e he
      simp [resampleMS] at he
    · intro o1 h1
      exact absurd h1 (List.not_mem_nil o1)
  | cons x rest =>
    constructor
    · intro e he
      simp only [resampleMS] at he
      rcases List.mem_map.mp he with ⟨i, hi, rfl⟩
      refine ⟨rfl, ?_, ?_⟩
      · intro hnone obs hobs hmonth
        replace hnone : firstPriceInMonth (loMonth x.1.month rest + i) (x :: rest)
            = none := hnone
        replace hmonth : obs.1.month = loMonth x.1.month rest + i := hmonth
        unfold firstPriceInMonth at hnone
        rw [List.head?_eq_none_iff] at hnone
        exact List.filterMap_eq_nil_iff.mp hnone obs
          (List.mem_filter.mpr ⟨hobs, by simp [hmonth]⟩)
      · intro q hq
        replace hq : firstPriceInMonth (loMonth x.1.month rest + i) (x :: rest)
            = some q := hq
        unfold firstPriceInMonth at hq
        have hpair :=
          hsort.filter (fun p => p.1.month == loMonth x.1.month rest + i)
        rcases head?_filterMap_is_earliest _ hpair q hq with ⟨obs, hm, hv, hmin⟩
        have hm' := List.mem_filter.mp hm
        have hmon : obs.1.month = loMonth x.1.month rest + i := by
          simpa using hm'.2
        refine ⟨obs, hm'.1, hmon, hv, ?_⟩
        intro o2 ho2 hmon2 hne
        replace hmon2 : o2.1.month = loMonth x.1.month rest + i := hmon2
        exact hmin o2 (List.mem_filter.mpr ⟨ho2, by simp [hmon2]⟩) hne
    · intro o1 h1 o2 h2 mo hm1 hm2
      have hlo : loMonth x.1.month rest ≤ mo :=
        le_trans (loMonth_le_mem x rest o1 h1) hm1
      have hhi : mo ≤ hiMonth x.1.month rest :=
        le_trans hm2 (mem_le_hiMonth x rest o2 h2)
      simp only [resampleMS]
      refine ⟨(⟨loMonth x.1.month rest + (mo - loMonth x.1.month rest), 1⟩,
          firstPriceInMonth
            (loMonth x.1.month rest + (mo - loMonth x.1.month rest)) (x :: rest)),
        List.mem_map.mpr ⟨mo - loMonth x.1.month rest,
          List.mem_range.mpr (by omega), rfl⟩, ?_⟩
      show loMonth x.1.month rest + (mo - loMonth x.1.month rest) = mo
      omega

/-- Witness for C9 amended: a single observation on day 2 of month 0. -/
theorem c9_amended_witness :
    (∀ e ∈ resampleMS [((⟨0, 2⟩ : Date), some (5 : ℚ))],
        e.1.day = 1 ∧
          (e.2 = none →
            ∀ obs ∈ [((⟨0, 2⟩ : Date), some (5 : ℚ))],
              obs.1.month = e.1.month → obs.2 = none) ∧
          ∀ q : ℚ, e.2 = some q →
            ∃ obs ∈ [((⟨0, 2⟩ : Date), some (5 : ℚ))],
              obs.1.month = e.1.month ∧ obs.2 = some q ∧
                ∀ o2 ∈ [((⟨0, 2⟩ : Date), some (5 : ℚ))],
                  o2.1.month = e.1.month → o2.2 ≠ none →
                    obs.1 = o2.1 ∨ obs.1.before o2.1) ∧
      ∀ o1 ∈ [((⟨0, 2⟩ : Date), some (5 : ℚ))],
        ∀ o2 ∈ [((⟨0, 2⟩ : Date), some (5 : ℚ))],
          ∀ mo : ℕ, o1.1.month ≤ mo → mo ≤ o2.1.month →
            ∃ e ∈ resampleMS [((⟨0, 2⟩ : Date), some (5 : ℚ))], e.1.month = mo :=
  c9_amended_thm [((⟨0, 2⟩ : Date), some (5 : ℚ))] (by simp)

end InvTracker
